import Mathlib

/-!
# Employment-ID control terminal (`main.c`): a shallow embedding

The firmware drives a character LCD in 4-bit mode, scans a 4x4 matrix keypad and
compares a 4-digit ID with a 4-digit password.

Modelling conventions.

* An 8-bit I/O register holds a `Nat`; every write stores its value `% 256`.
* `int` is 16 bits wide on the AVR target.  `~x` on an `int` is `not16 x`, the
  complement of the 16-bit pattern; signed arithmetic wraps through `wrap16`.
* `char` values are Lean `Char`s; passing one as an `unsigned char` is `toUChar`.
* `_delay_us` / `_delay_ms` only spend time and are not represented.
* The LCD is observed through the log of enable pulses (`HW.strobes`): each pulse
  records what the data port and the control port hold while `EN` is high.
* The keypad is observed through `HW.pins`: the values that the successive reads
  of the volatile register `KP_PIN` are going to return.  A function that would
  still be waiting when the readings are used up yields `none`.
-/

namespace EmploymentID

/-! ## Hardware state -/

/-- One enable pulse as seen by the LCD controller: the contents of the data
port (`LCD_D_P`) and of the control port (`LCD_C_P`) while `EN` is high. -/
structure Strobe where
  data : Nat
  ctrl : Nat
  deriving DecidableEq, Repr

/-- The registers the program touches, under the names the source gives them
(`LCD_D_P` is `PORTA`, `LCD_C_P` is `PORTB`, `KP_PORT` is `PORTC`, `KP_DDR` is
`DDRC`), the values `pins` that the coming reads of `KP_PIN` return, and the log
of LCD enable pulses (oldest first). -/
structure HW where
  LCD_D_P : Nat
  LCD_C_P : Nat
  KP_PORT : Nat
  KP_DDR : Nat
  pins : List Nat
  strobes : List Strobe
  deriving DecidableEq, Repr

/-- Bit number of the LCD enable line (`PB0` of `<avr/io.h>`). -/
def EN : Nat := 0
/-- Bit number of the LCD read/write line (`PB1` of `<avr/io.h>`). -/
def RW : Nat := 1
/-- Bit number of the LCD register-select line (`PB2` of `<avr/io.h>`). -/
def RS : Nat := 2

/-- C `~x` on a 16-bit `int`, as a bit pattern. -/
def not16 (x : Nat) : Nat := 0xFFFF ^^^ x

/-- Conversion of a `char` argument to `unsigned char`. -/
def toUChar (c : Char) : Nat := c.toNat % 256

/-! ## Keypad layout -/

/-- The table `keymap[4][4]`. -/
def keymap : List (List Char) :=
  [ ['7', '8', '9', '/'],
    ['4', '5', '6', '*'],
    ['1', '2', '3', '-'],
    ['A', '0', '=', '+'] ]

/-- The read `keymap[row][col]`; `none` when an index is out of bounds. -/
def keymapAt (row col : Nat) : Option Char :=
  match keymap.get? row with
  | none => none
  | some r => r.get? col

/-! ## Low-level LCD helpers -/

/-- Function `enable()`: raise `EN`, let the controller see the ports, lower `EN`. -/
def enable (s : HW) : HW :=
  let s1 := { s with LCD_C_P := (s.LCD_C_P ||| (1 <<< EN)) % 256 }
  let s2 := { s1 with strobes := s1.strobes ++ [Strobe.mk s1.LCD_D_P s1.LCD_C_P] }
  { s2 with LCD_C_P := (s2.LCD_C_P &&& not16 (1 <<< EN)) % 256 }

/-- Function `SEND_D_C(a, t)`: send the byte `a` as a command (`t = 0`) or as data. -/
def SEND_D_C (a t : Nat) (s : HW) : HW :=
  let s1 :=
    if t ≠ 0 then { s with LCD_C_P := (s.LCD_C_P ||| (1 <<< RS)) % 256 }
    else { s with LCD_C_P := (s.LCD_C_P &&& not16 (1 <<< RS)) % 256 }
  let s2 := { s1 with LCD_C_P := (s1.LCD_C_P &&& not16 (1 <<< RW)) % 256 }
  -- high nibble
  let s3 := { s2 with LCD_D_P := ((s2.LCD_D_P &&& 0xF0) ||| ((a >>> 4) &&& 0x0F)) % 256 }
  let s4 := enable s3
  -- low nibble
  let s5 := { s4 with LCD_D_P := ((s4.LCD_D_P &&& 0xF0) ||| (a &&& 0x0F)) % 256 }
  enable s5

/-- Function `LCD_X_Y(x, y)`: move the cursor.  The `int` sum is narrowed to the
`unsigned char` parameter of `SEND_D_C`. -/
def LCD_X_Y (x y : Nat) (s : HW) : HW :=
  if y = 0 then SEND_D_C ((0x80 + x) % 256) 0 s
  else SEND_D_C ((0xC0 + x) % 256) 0 s

/-- Function `LCD_D_C_ST(s)`: send the characters of a string up to its terminator.  The
list holds the characters in front of the final NUL of the C string. -/
def LCD_D_C_ST : List Char → HW → HW
  | [], s => s
  | c :: cs, s => if c = '\x00' then s else LCD_D_C_ST cs (SEND_D_C (toUChar c) 1 s)

/-- Function `LCD_INIT1()`: the fixed command sequence. -/
def LCD_INIT1 (s : HW) : HW :=
  [0x33, 0x32, 0x28, 0x0C, 0x06, 0x01].foldl (fun st c => SEND_D_C c 0 st) s

/-! ## Keypad scanning -/

/-- The value written to `KP_PORT` when `row` is scanned:
`0x0F | (~(1 << (row + 4)) & 0xF0)`, stored in the 8-bit register. -/
def rowDrive (row : Nat) : Nat :=
  (0x0F ||| (not16 (1 <<< (row + 4)) &&& 0xF0)) % 256

/-- The release wait `while (!(KP_PIN & (1 << col)));`: readings are consumed
until one has bit `col` set; the readings after it are returned. -/
def waitRelease (col : Nat) : List Nat → Option (List Nat)
  | [] => none
  | p :: ps => if p &&& (1 <<< col) = 0 then waitRelease col ps else some ps

/-- The scan loops of `getKey`, started at the test
`if (!(KP_PIN & (1 << col)))` for the position `(row, col)`, with `port` the
current contents of `KP_PORT`.  Each test takes one reading.  A low column bit
leads to the release wait and the return; otherwise the scan moves on to the
next column, to the next row (writing its drive value to `KP_PORT`), or, after
row 3, back to row 0 of the enclosing `while (1)`.  The result is the position
found, the final `KP_PORT` and the readings left. -/
def scanFrom (row col port : Nat) : List Nat → Option (Nat × Nat × Nat × List Nat)
  | [] => none
  | p :: ps =>
    if p &&& (1 <<< col) = 0 then
      match waitRelease col ps with
      | none => none
      | some rest => some (row, col, port, rest)
    else if col + 1 < 4 then scanFrom row (col + 1) port ps
    else if row + 1 < 4 then scanFrom (row + 1) 0 (rowDrive (row + 1)) ps
    else scanFrom 0 0 (rowDrive 0) ps

/-- The value of `keymap[row][col]`; NUL stands for a read outside the table. -/
def keymapRead (row col : Nat) : Char :=
  (keymapAt row col).getD '\x00'

/-- Function `getKey()`: configure the keypad port, scan until a key is pressed and
released, return its character. -/
def getKey (s : HW) : Option (Char × HW) :=
  let s1 := { s with KP_DDR := 0xF0 }
  let s2 := { s1 with KP_PORT := 0x0F }
  let s3 := { s2 with KP_PORT := rowDrive 0 }
  match scanFrom 0 0 s3.KP_PORT s3.pins with
  | none => none
  | some (row, col, port, rest) =>
    some (keymapRead row col, { s3 with KP_PORT := port, pins := rest })

/-! ## Code entry -/

/-- The assignment `buf[i] = k` on a buffer given as a map from index to
character. -/
def store (buf : Nat → Char) (i : Nat) (k : Char) : Nat → Char :=
  fun j => if j = i then k else buf j

/-- The loop `do { k = getKey(); } while (k < '0' || k > '9');` with a bound on
the number of `getKey` calls. -/
def readKeyLoop : Nat → HW → Option (Char × HW)
  | 0, _ => none
  | fuel + 1, s =>
    match getKey s with
    | none => none
    | some (k, s1) => if k < '0' ∨ k > '9' then readKeyLoop fuel s1 else some (k, s1)

/-- The `do ... while` loop of `readCode`.  Every `getKey` call that returns
uses up at least one reading, so there are never more calls than readings. -/
def readKey (s : HW) : Option (Char × HW) :=
  readKeyLoop s.pins.length s

/-- The `for` loop of `readCode` at counter `i` with `todo = len - i` iterations
to go; `i++` is an increment of a `uint8_t`. -/
def readCodeLoop (mask : Nat) : Nat → Nat → (Nat → Char) → HW → Option ((Nat → Char) × HW)
  | 0, _, buf, s => some (buf, s)
  | todo + 1, i, buf, s =>
    match readKey s with
    | none => none
    | some (k, s1) =>
      let buf1 := store buf i k
      let s2 := SEND_D_C (toUChar (if mask ≠ 0 then '*' else k)) 1 s1
      readCodeLoop mask todo ((i + 1) % 256) buf1 s2

/-- Function `readCode(buf, len, mask)`.  `buf` maps an index to the character
stored there.  `len` is a `uint8_t`: for `len < 256` the counter runs from 0 to
`len` without wrapping, which makes `len - i` the number of iterations left. -/
def readCode (buf : Nat → Char) (len mask : Nat) (s : HW) : Option ((Nat → Char) × HW) :=
  match readCodeLoop mask len 0 buf s with
  | none => none
  | some (buf1, s1) => some (store buf1 len '\x00', s1)

/-! ## Decimal conversion -/

/-- Reduction of a mathematical integer to the 16-bit signed `int`. -/
def wrap16 (x : Int) : Int := (x + 32768) % 65536 - 32768

/-- Integer promotion of a (signed, 8-bit) `char`. -/
def charToInt (c : Char) : Int :=
  if c.toNat % 256 < 128 then (c.toNat % 256 : Nat) else ((c.toNat % 256 : Nat) : Int) - 256

/-- Function `toInt(buf)`, every operation carried out on 16-bit `int`s. -/
def toInt (buf : Nat → Char) : Int :=
  let p0 := wrap16 (wrap16 (charToInt (buf 0) - charToInt '0') * 1000)
  let p1 := wrap16 (wrap16 (charToInt (buf 1) - charToInt '0') * 100)
  let p2 := wrap16 (wrap16 (charToInt (buf 2) - charToInt '0') * 10)
  let p3 := wrap16 (charToInt (buf 3) - charToInt '0')
  wrap16 (wrap16 (wrap16 (p0 + p1) + p2) + p3)

/-- The value of the expression in `toInt` over the mathematical integers, with
no reduction to 16 bits anywhere. -/
def toIntExact (buf : Nat → Char) : Int :=
  (charToInt (buf 0) - charToInt '0') * 1000
    + (charToInt (buf 1) - charToInt '0') * 100
    + (charToInt (buf 2) - charToInt '0') * 10
    + (charToInt (buf 3) - charToInt '0')

/-- The mathematical value of every operation `toInt` performs: the four digit
differences, the three products and the three partial sums (the last one is the
result). -/
def toIntSteps (buf : Nat → Char) : List Int :=
  let d (i : Nat) : Int := charToInt (buf i) - charToInt '0'
  [d 0, d 1, d 2, d 3,
   d 0 * 1000, d 1 * 100, d 2 * 10,
   d 0 * 1000 + d 1 * 100,
   d 0 * 1000 + d 1 * 100 + d 2 * 10,
   d 0 * 1000 + d 1 * 100 + d 2 * 10 + d 3]

/-! ## Main program -/

/-- The "convert and check" step of the main loop (from `idVal = toInt(idBuf)`
to the result message). -/
def main_check (idBuf pwdBuf : Nat → Char) (s : HW) : HW :=
  let idVal := toInt idBuf
  let pwdVal := toInt pwdBuf
  let s1 := SEND_D_C 0x01 0 s
  let s2 := LCD_X_Y 0 0 s1
  if (idVal ≥ 2330 ∧ idVal ≤ 2340) ∧ idVal = pwdVal then
    LCD_D_C_ST "Access Granted".toList s2
  else
    LCD_D_C_ST "Access Denied".toList s2

/-- One pass through the body of `while (1)` in `main`: both prompts, both
entries, the check.  The result carries the two buffers as the check saw them. -/
def main_iteration (idBuf pwdBuf : Nat → Char) (s : HW) :
    Option ((Nat → Char) × (Nat → Char) × HW) :=
  let s1 := SEND_D_C 0x01 0 s
  let s2 := LCD_X_Y 0 0 s1
  let s3 := LCD_D_C_ST "Enter ID:".toList s2
  let s4 := LCD_X_Y 0 1 s3
  match readCode idBuf 4 0 s4 with
  | none => none
  | some (idBuf1, s5) =>
    let s6 := SEND_D_C 0x01 0 s5
    let s7 := LCD_X_Y 0 0 s6
    let s8 := LCD_D_C_ST "Enter Pass:".toList s7
    let s9 := LCD_X_Y 0 1 s8
    match readCode pwdBuf 4 1 s9 with
    | none => none
    | some (pwdBuf1, s10) => some (idBuf1, pwdBuf1, main_check idBuf1 pwdBuf1 s10)

/-! ## Observations used to state the properties -/

/-- The LCD side of the 4-bit bus: two consecutive pulses carry one byte, high
nibble first, on the low four data lines; `RS` of the pair tells data from
command. -/
def lcdBytes : List Strobe → List (Bool × Nat)
  | hi :: lo :: rest =>
    (hi.ctrl.testBit RS, ((hi.data &&& 0x0F) <<< 4) ||| (lo.data &&& 0x0F)) :: lcdBytes rest
  | _ => []

/-- The characters among the bytes received (those sent with `RS = 1`). -/
def lcdText (st : List Strobe) : List Char :=
  ((lcdBytes st).filter (fun b => b.1)).map (fun b => Char.ofNat b.2)

/-- The pulses logged between state `s` and the later state `t`. -/
def emitted (s t : HW) : List Strobe := t.strobes.drop s.strobes.length

/-- The digit test of `readCode`: not (`k < '0'` or `k > '9'`). -/
def isDigitKey (k : Char) : Bool := !(decide (k < '0') || decide (k > '9'))

/-- The first four characters of a buffer all pass the digit test. -/
def digits4 (buf : Nat → Char) : Bool :=
  isDigitKey (buf 0) && isDigitKey (buf 1) && isDigitKey (buf 2) && isDigitKey (buf 3)

/-- A buffer that holds the characters of `str` followed by NULs. -/
def bufOf (str : String) : Nat → Char := fun i => str.toList.getD i '\x00'

/-- The keys returned by the first `n` successive `getKey` calls (fewer if the
readings run out). -/
def keySeqAux : Nat → HW → List Char
  | 0, _ => []
  | n + 1, s =>
    match getKey s with
    | none => []
    | some (k, s1) => k :: keySeqAux n s1

/-- The keys that successive `getKey` calls return from state `s` on. -/
def keySeq (s : HW) : List Char := keySeqAux s.pins.length s

/-- The condition tested by the main loop:
`(idVal >= 2330 && idVal <= 2340) && (idVal == pwdVal)`. -/
def granted (idVal pwdVal : Int) : Prop :=
  (idVal ≥ 2330 ∧ idVal ≤ 2340) ∧ idVal = pwdVal

instance (idVal pwdVal : Int) : Decidable (granted idVal pwdVal) := by
  unfold granted
  infer_instance

/-- The eleven ID strings from "2330" to "2340". -/
def grantedIDs : List (List Char) :=
  ["2330", "2331", "2332", "2333", "2334", "2335", "2336", "2337", "2338", "2339",
    "2340"].map String.toList

/-- Readings that make a `getKey` call starting its scan return the key at
`(row, col)`: every column test before that position reads high, the test of the
position reads column `col` low, and the next reading shows it released. -/
def press (row col : Nat) : List Nat :=
  List.replicate (4 * row + col) 0xFF ++ [0xFF ^^^ (1 <<< col), 0xFF]

/-- Readings for the key presses `A`, `2`, `3`, `3`, `0`. -/
def pinsA2330 : List Nat :=
  press 3 0 ++ press 2 1 ++ press 2 2 ++ press 2 2 ++ press 3 1

/-- A state with all registers clear and the given keypad readings. -/
def hw0 (pins : List Nat) : HW := ⟨0, 0, 0, 0, pins, []⟩

/-! ## Auxiliary definitions for the proofs -/

/-- Control port after the `RS` / `RW` selection at the start of `SEND_D_C`. -/
def selCtrl (t p : Nat) : Nat :=
  ((if t ≠ 0 then (p ||| (1 <<< RS)) % 256 else (p &&& not16 (1 <<< RS)) % 256)
    &&& not16 (1 <<< RW)) % 256

/-- Control port during the first pulse of `SEND_D_C`. -/
def hiCtrl (t p : Nat) : Nat := (selCtrl t p ||| (1 <<< EN)) % 256

/-- Control port during the second pulse of `SEND_D_C`. -/
def loCtrl (t p : Nat) : Nat :=
  (((hiCtrl t p &&& not16 (1 <<< EN)) % 256) ||| (1 <<< EN)) % 256

/-- Data port during the first pulse of `SEND_D_C`. -/
def hiData (a p : Nat) : Nat := ((p &&& 0xF0) ||| ((a >>> 4) &&& 0x0F)) % 256

/-- Data port during the second pulse of `SEND_D_C`. -/
def loData (a p : Nat) : Nat := ((hiData a p &&& 0xF0) ||| (a &&& 0x0F)) % 256

/-- Between `s` and `t` the LCD received exactly the bytes `bytes` (each with its
`RS` level), two pulses per byte. -/
def Sends (s t : HW) (bytes : List (Bool × Nat)) : Prop :=
  ∃ new, t.strobes = s.strobes ++ new ∧ new.length = 2 * bytes.length ∧ lcdBytes new = bytes

/-- The byte `readCode` echoes for the accepted digit `k`. -/
def echoByte (mask : Nat) (k : Char) : Bool × Nat :=
  (true, toUChar (if mask ≠ 0 then '*' else k))

/-- The value spelled by a list of four characters read as decimal digits. -/
def decimal4 : List Char → Int
  | [a, b, c, d] =>
    1000 * ((a.toNat : Int) - 48) + 100 * ((b.toNat : Int) - 48)
      + 10 * ((c.toNat : Int) - 48) + ((d.toNat : Int) - 48)
  | _ => 0

/-! ## Bit-level facts -/

theorem and_0F (x : Nat) : x &&& 0x0F = x % 16 :=
  Nat.and_pow_two_sub_one_eq_mod x 4

theorem shr4 (x : Nat) : x >>> 4 = x / 16 := by
  rw [Nat.shiftRight_eq_div_pow]

theorem shl4 (x : Nat) : x <<< 4 = x * 16 := by
  rw [Nat.shiftLeft_eq]

theorem testBit_mod256 (x i : Nat) :
    (x % 256).testBit i = (decide (i < 8) && x.testBit i) :=
  Nat.testBit_mod_two_pow x 8 i

theorem testBit_false_of_lt {x i k : Nat} (hx : x < 2 ^ k) (hi : k ≤ i) :
    x.testBit i = false :=
  Nat.testBit_lt_two_pow (lt_of_lt_of_le hx (Nat.pow_le_pow_right (by norm_num) hi))

theorem and_F0 (x : Nat) : x &&& 0xF0 = x / 16 % 16 * 16 := by
  apply Nat.eq_of_testBit_eq
  intro i
  have e : x / 16 % 16 * 16 = (x >>> 4 % 2 ^ 4) <<< 4 := by
    rw [Nat.shiftLeft_eq, Nat.shiftRight_eq_div_pow]
    norm_num
  rw [e, Nat.testBit_and, Nat.testBit_shiftLeft, Nat.testBit_mod_two_pow,
    Nat.testBit_shiftRight]
  by_cases h4 : i < 4
  · interval_cases i <;> simp [Nat.testBit]
  · by_cases h8 : i < 8
    · have h : 4 + (i - 4) = i := by omega
      rw [h]
      interval_cases i <;> simp [Nat.testBit]
    · have h : Nat.testBit 240 i = false := testBit_false_of_lt (k := 8) (by norm_num) (by omega)
      have h' : decide (i - 4 < 4) = false := by simp; omega
      simp [h, h']

theorem or_low (m n : Nat) (h : n < 16) : m * 16 ||| n = m * 16 + n := by
  have := Nat.mul_add_lt_is_or (i := 4) (b := n) (by simpa using h) m
  rw [mul_comm] at this
  simpa using this.symm

/-- The data port after a nibble `n` has been placed on its low four lines. -/
theorem nibble_write (p n : Nat) (h : n < 16) :
    ((p &&& 0xF0) ||| n) % 256 = p / 16 % 16 * 16 + n := by
  rw [and_F0, or_low _ _ h]
  omega

/-! ## What one `SEND_D_C` call puts on the bus -/

theorem SEND_D_C_strobes_eq (a t : Nat) (s : HW) :
    (SEND_D_C a t s).strobes =
      s.strobes ++ [Strobe.mk (hiData a s.LCD_D_P) (hiCtrl t s.LCD_C_P),
                    Strobe.mk (loData a s.LCD_D_P) (loCtrl t s.LCD_C_P)] := by
  by_cases ht : t = 0 <;>
    simp [SEND_D_C, enable, hiData, loData, hiCtrl, loCtrl, selCtrl, ht]

theorem SEND_D_C_data (a t : Nat) (s : HW) :
    (SEND_D_C a t s).LCD_D_P = loData a s.LCD_D_P := by
  by_cases ht : t = 0 <;> simp [SEND_D_C, enable, hiData, loData, ht]

theorem SEND_D_C_pins (a t : Nat) (s : HW) : (SEND_D_C a t s).pins = s.pins := by
  by_cases ht : t = 0 <;> simp [SEND_D_C, enable, ht]

theorem hiData_eq (a p : Nat) : hiData a p = p / 16 % 16 * 16 + a / 16 % 16 := by
  unfold hiData
  rw [and_0F, shr4, nibble_write _ _ (Nat.mod_lt _ (by norm_num))]

theorem loData_eq (a p : Nat) : loData a p = p / 16 % 16 * 16 + a % 16 := by
  unfold loData
  rw [and_0F, nibble_write _ _ (Nat.mod_lt _ (by norm_num)), hiData_eq]
  omega

theorem selCtrl_RS (t p : Nat) : (selCtrl t p).testBit RS = decide (t ≠ 0) := by
  have h1 : (not16 (1 <<< RW)).testBit RS = true := by decide
  have h2 : (1 <<< RS).testBit RS = true := by decide
  have h3 : (not16 (1 <<< RS)).testBit RS = false := by decide
  have h4 : decide (RS < 8) = true := by decide
  by_cases ht : t = 0 <;>
    simp [selCtrl, testBit_mod256, Nat.testBit_and, Nat.testBit_or, h1, h2, h3, h4, ht]

theorem selCtrl_RW (t p : Nat) : (selCtrl t p).testBit RW = false := by
  have h1 : (not16 (1 <<< RW)).testBit RW = false := by decide
  simp [selCtrl, testBit_mod256, Nat.testBit_and, h1]

theorem hiCtrl_bits (t p : Nat) :
    (hiCtrl t p).testBit RS = decide (t ≠ 0) ∧ (hiCtrl t p).testBit RW = false ∧
      (hiCtrl t p).testBit EN = true := by
  have h1 : (1 <<< EN).testBit RS = false := by decide
  have h2 : (1 <<< EN).testBit RW = false := by decide
  have h3 : (1 <<< EN).testBit EN = true := by decide
  have h4 : decide (RS < 8) = true := by decide
  have h5 : decide (RW < 8) = true := by decide
  have h6 : decide (EN < 8) = true := by decide
  refine ⟨?_, ?_, ?_⟩
  · simp only [hiCtrl, testBit_mod256, Nat.testBit_or, selCtrl_RS, h1, h4]
    simp
  · simp only [hiCtrl, testBit_mod256, Nat.testBit_or, selCtrl_RW, h2, h5]
    simp
  · simp only [hiCtrl, testBit_mod256, Nat.testBit_or, h3, h6]
    simp

theorem loCtrl_bits (t p : Nat) :
    (loCtrl t p).testBit RS = decide (t ≠ 0) ∧ (loCtrl t p).testBit RW = false ∧
      (loCtrl t p).testBit EN = true := by
  have h1 : (1 <<< EN).testBit RS = false := by decide
  have h2 : (1 <<< EN).testBit RW = false := by decide
  have h3 : (1 <<< EN).testBit EN = true := by decide
  have h4 : decide (RS < 8) = true := by decide
  have h5 : decide (RW < 8) = true := by decide
  have h6 : decide (EN < 8) = true := by decide
  have h7 : (not16 (1 <<< EN)).testBit RS = true := by decide
  have h8 : (not16 (1 <<< EN)).testBit RW = true := by decide
  obtain ⟨b1, b2, _⟩ := hiCtrl_bits t p
  refine ⟨?_, ?_, ?_⟩
  · simp only [loCtrl, testBit_mod256, Nat.testBit_or, Nat.testBit_and, b1, h1, h4, h7]
    simp
  · simp only [loCtrl, testBit_mod256, Nat.testBit_or, Nat.testBit_and, b2, h2, h5, h8]
    simp
  · simp only [loCtrl, testBit_mod256, Nat.testBit_or, h3, h6]
    simp

theorem nibbles_join (a p q : Nat) (ha : a < 256) :
    ((hiData a p &&& 0x0F) <<< 4) ||| (loData a q &&& 0x0F) = a := by
  rw [and_0F, and_0F, shl4, or_low _ _ (Nat.mod_lt _ (by norm_num)), hiData_eq, loData_eq]
  omega

/-! ## Bytes received by the LCD -/

theorem lcdBytes_append (k : Nat) :
    ∀ (l1 l2 : List Strobe), l1.length = 2 * k →
      lcdBytes (l1 ++ l2) = lcdBytes l1 ++ lcdBytes l2 ∧ (lcdBytes l1).length = k := by
  induction k with
  | zero =>
    intro l1 l2 h
    have : l1 = [] := List.length_eq_zero.mp (by simpa using h)
    subst this
    simp [lcdBytes]
  | succ k ih =>
    intro l1 l2 h
    match l1, h with
    | hi :: lo :: rest, h =>
      have hr : rest.length = 2 * k := by simp at h; omega
      obtain ⟨e1, e2⟩ := ih rest l2 hr
      simp [lcdBytes, e1, e2]

theorem Sends.refl (s : HW) : Sends s s [] :=
  ⟨[], by simp, by simp, by simp [lcdBytes]⟩

theorem Sends.of_strobes_eq {s t : HW} (h : t.strobes = s.strobes) : Sends s t [] :=
  ⟨[], by simp [h], by simp, by simp [lcdBytes]⟩

theorem Sends.trans {s t u : HW} {b1 b2 : List (Bool × Nat)}
    (h1 : Sends s t b1) (h2 : Sends t u b2) : Sends s u (b1 ++ b2) := by
  obtain ⟨n1, e1, l1, d1⟩ := h1
  obtain ⟨n2, e2, l2, d2⟩ := h2
  refine ⟨n1 ++ n2, ?_, ?_, ?_⟩
  · rw [e2, e1, List.append_assoc]
  · simp [l1, l2]; omega
  · rw [(lcdBytes_append _ n1 n2 l1).1, d1, d2]

theorem sends_emitted {s t : HW} {b : List (Bool × Nat)} (h : Sends s t b) :
    t.strobes = s.strobes ++ emitted s t ∧ (emitted s t).length = 2 * b.length ∧
      lcdBytes (emitted s t) = b := by
  obtain ⟨n, e, l, d⟩ := h
  have : emitted s t = n := by simp [emitted, e]
  rw [this]
  exact ⟨e, l, d⟩

theorem SEND_D_C_sends (a t : Nat) (s : HW) (ha : a < 256) :
    Sends s (SEND_D_C a t s) [(decide (t ≠ 0), a)] := by
  refine ⟨_, SEND_D_C_strobes_eq a t s, by simp, ?_⟩
  simp only [lcdBytes, (hiCtrl_bits t s.LCD_C_P).1, nibbles_join a _ _ ha]

theorem LCD_X_Y_sends (x y : Nat) (s : HW) :
    Sends s (LCD_X_Y x y s)
      [(false, if y = 0 then (0x80 + x) % 256 else (0xC0 + x) % 256)] := by
  unfold LCD_X_Y
  by_cases hy : y = 0
  · simpa [hy] using SEND_D_C_sends ((0x80 + x) % 256) 0 s (Nat.mod_lt _ (by norm_num))
  · simpa [hy] using SEND_D_C_sends ((0xC0 + x) % 256) 0 s (Nat.mod_lt _ (by norm_num))

theorem LCD_D_C_ST_sends (cs : List Char) :
    ∀ s : HW, (∀ c ∈ cs, c ≠ '\x00') →
      Sends s (LCD_D_C_ST cs s) (cs.map (fun c => (true, toUChar c))) := by
  induction cs with
  | nil => intro s _; exact Sends.refl s
  | cons c cs ih =>
    intro s h
    have hc : c ≠ '\x00' := h c (by simp)
    have h1 := SEND_D_C_sends (toUChar c) 1 s (Nat.mod_lt _ (by norm_num))
    have h2 := ih (SEND_D_C (toUChar c) 1 s) (fun d hd => h d (by simp [hd]))
    simpa [LCD_D_C_ST, hc] using h1.trans h2

/-! ## The keypad scan -/

theorem waitRelease_length (col : Nat) :
    ∀ (ps rest : List Nat), waitRelease col ps = some rest → rest.length < ps.length := by
  intro ps
  induction ps with
  | nil => intro rest h; simp [waitRelease] at h
  | cons p ps ih =>
    intro rest h
    unfold waitRelease at h
    split at h
    · have := ih rest h
      simp; omega
    · cases h
      simp

theorem scanFrom_spec :
    ∀ (pins : List Nat) (row col port r c p : Nat) (rest : List Nat),
      row < 4 → col < 4 → scanFrom row col port pins = some (r, c, p, rest) →
        r < 4 ∧ c < 4 ∧ rest.length < pins.length ∧ (port = rowDrive row → p = rowDrive r) := by
  intro pins
  induction pins with
  | nil => intro row col port r c p rest _ _ h; simp [scanFrom] at h
  | cons q qs ih =>
    intro row col port r c p rest hrow hcol h
    unfold scanFrom at h
    split at h
    · split at h
      · cases h
      · rename_i rest1 hw
        cases h
        have := waitRelease_length _ _ _ hw
        exact ⟨hrow, hcol, by simp; omega, fun e => e⟩
    · split at h
      · rename_i hc
        obtain ⟨h1, h2, h3, h4⟩ := ih row (col + 1) port r c p rest hrow hc h
        exact ⟨h1, h2, by simp; omega, h4⟩
      · split at h
        · rename_i hr
          obtain ⟨h1, h2, h3, h4⟩ := ih (row + 1) 0 _ r c p rest hr (by norm_num) h
          exact ⟨h1, h2, by simp; omega, fun _ => h4 rfl⟩
        · obtain ⟨h1, h2, h3, h4⟩ := ih 0 0 _ r c p rest (by norm_num) (by norm_num) h
          exact ⟨h1, h2, by simp; omega, fun _ => h4 rfl⟩

/-- The result of `getKey` in terms of the scan of the pending readings. -/
theorem getKey_some {s : HW} {k : Char} {s1 : HW} (h : getKey s = some (k, s1)) :
    ∃ row col rest, scanFrom 0 0 (rowDrive 0) s.pins = some (row, col, rowDrive row, rest) ∧
      row < 4 ∧ col < 4 ∧ k = keymapRead row col ∧ rest.length < s.pins.length ∧
      s1 = { s with KP_DDR := 0xF0, KP_PORT := rowDrive row, pins := rest } := by
  unfold getKey at h
  simp only at h
  split at h
  · cases h
  · rename_i row col port rest hs
    obtain ⟨h1, h2, h3, h4⟩ := scanFrom_spec _ _ _ _ _ _ _ _ (by norm_num) (by norm_num) hs
    have hp : port = rowDrive row := h4 rfl
    subst hp
    cases h
    exact ⟨row, col, rest, hs, h1, h2, rfl, h3, rfl⟩

theorem getKey_none {s : HW} (h : getKey s = none) :
    scanFrom 0 0 (rowDrive 0) s.pins = none := by
  unfold getKey at h
  simp only at h
  split at h
  · assumption
  · cases h

/-- The result of `getKey` depends on nothing but the pending readings. -/
theorem getKey_congr {s t : HW} (h : s.pins = t.pins) :
    (getKey s = none ∧ getKey t = none) ∨
      ∃ k s1 t1, getKey s = some (k, s1) ∧ getKey t = some (k, t1) ∧ s1.pins = t1.pins ∧
        s1.pins.length < s.pins.length := by
  cases hs : getKey s with
  | none =>
    left
    refine ⟨rfl, ?_⟩
    have := getKey_none hs
    unfold getKey
    simp only [← h, this]
  | some r =>
    right
    obtain ⟨k, s1⟩ := r
    obtain ⟨row, col, rest, e, _, _, hk, hl, hs1⟩ := getKey_some hs
    refine ⟨k, s1, { t with KP_DDR := 0xF0, KP_PORT := rowDrive row, pins := rest }, rfl, ?_, ?_, ?_⟩
    · unfold getKey
      simp only [← h, e, hk]
    · rw [hs1]
    · rw [hs1]; exact hl

theorem keymapRead_mem {row col : Nat} (hr : row < 4) (hc : col < 4) :
    keymapAt row col = some (keymapRead row col) ∧
      keymapRead row col ∈
        ['0', '1', '2', '3', '4', '5', '6', '7', '8', '9', '/', '*', '-', '+', '=', 'A'] := by
  interval_cases row <;> interval_cases col <;> decide

theorem getKey_nil {s : HW} (h : s.pins = []) : getKey s = none := by
  unfold getKey
  simp [h, scanFrom]

/-! ## The key sequence and the digit filter -/

theorem keySeqAux_fuel :
    ∀ (n m : Nat) (s : HW), s.pins.length ≤ n → s.pins.length ≤ m →
      keySeqAux n s = keySeqAux m s := by
  intro n
  induction n with
  | zero =>
    intro m s hn _
    have hp : s.pins = [] := List.length_eq_zero.mp (by omega)
    cases m with
    | zero => rfl
    | succ m => simp [keySeqAux, getKey_nil hp]
  | succ n ih =>
    intro m s hn hm
    cases m with
    | zero =>
      have hp : s.pins = [] := List.length_eq_zero.mp (by omega)
      simp [keySeqAux, getKey_nil hp]
    | succ m =>
      cases hg : getKey s with
      | none => simp [keySeqAux, hg]
      | some r =>
        obtain ⟨k, s1⟩ := r
        obtain ⟨_, _, rest, _, _, _, _, hl, hs1⟩ := getKey_some hg
        have hl1 : s1.pins.length < s.pins.length := by rw [hs1]; exact hl
        simp only [keySeqAux, hg]
        rw [ih m s1 (by omega) (by omega)]

theorem keySeq_some {s : HW} {k : Char} {s1 : HW} (h : getKey s = some (k, s1)) :
    keySeq s = k :: keySeq s1 := by
  obtain ⟨_, _, rest, _, _, _, _, hl, hs1⟩ := getKey_some h
  have hl1 : s1.pins.length < s.pins.length := by rw [hs1]; exact hl
  unfold keySeq
  obtain ⟨n, hn⟩ : ∃ n, s.pins.length = n + 1 := ⟨s.pins.length - 1, by omega⟩
  rw [hn]
  simp only [keySeqAux, h]
  rw [keySeqAux_fuel n s1.pins.length s1 (by omega) le_rfl]

theorem keySeq_none {s : HW} (h : getKey s = none) : keySeq s = [] := by
  unfold keySeq
  rw [keySeqAux_fuel s.pins.length (s.pins.length + 1) s le_rfl (by omega)]
  simp only [keySeqAux, h]

theorem keySeq_congr :
    ∀ (n : Nat) (s t : HW), s.pins.length ≤ n → s.pins = t.pins → keySeq s = keySeq t := by
  intro n
  induction n with
  | zero =>
    intro s t hn h
    have hp : s.pins = [] := List.length_eq_zero.mp (by omega)
    rw [keySeq_none (getKey_nil hp), keySeq_none (getKey_nil (h ▸ hp))]
  | succ n ih =>
    intro s t hn h
    rcases getKey_congr h with ⟨e1, e2⟩ | ⟨k, s1, t1, e1, e2, hp, hl⟩
    · rw [keySeq_none e1, keySeq_none e2]
    · rw [keySeq_some e1, keySeq_some e2, ih s1 t1 (by omega) hp]

theorem keySeq_SEND_D_C (a t : Nat) (s : HW) : keySeq (SEND_D_C a t s) = keySeq s :=
  keySeq_congr _ _ _ le_rfl (SEND_D_C_pins a t s)

theorem isDigitKey_iff (k : Char) : isDigitKey k = true ↔ ¬ (k < '0' ∨ k > '9') := by
  simp [isDigitKey]

theorem readKeyLoop_fuel :
    ∀ (n m : Nat) (s : HW), s.pins.length ≤ n → s.pins.length ≤ m →
      readKeyLoop n s = readKeyLoop m s := by
  intro n
  induction n with
  | zero =>
    intro m s hn _
    have hp : s.pins = [] := List.length_eq_zero.mp (by omega)
    cases m with
    | zero => rfl
    | succ m => simp [readKeyLoop, getKey_nil hp]
  | succ n ih =>
    intro m s hn hm
    cases m with
    | zero =>
      have hp : s.pins = [] := List.length_eq_zero.mp (by omega)
      simp [readKeyLoop, getKey_nil hp]
    | succ m =>
      cases hg : getKey s with
      | none => simp [readKeyLoop, hg]
      | some r =>
        obtain ⟨k, s1⟩ := r
        obtain ⟨_, _, rest, _, _, _, _, hl, hs1⟩ := getKey_some hg
        have hl1 : s1.pins.length < s.pins.length := by rw [hs1]; exact hl
        simp only [readKeyLoop, hg]
        rw [ih m s1 (by omega) (by omega)]

/-- The `do ... while` loop unfolded once: the bound on the calls plays no part. -/
theorem readKey_unfold (s : HW) :
    readKey s =
      match getKey s with
      | none => none
      | some (k, s1) => if k < '0' ∨ k > '9' then readKey s1 else some (k, s1) := by
  cases hg : getKey s with
  | none =>
    unfold readKey
    rw [readKeyLoop_fuel s.pins.length (s.pins.length + 1) s le_rfl (by omega)]
    simp only [readKeyLoop, hg]
  | some r =>
    obtain ⟨k, s1⟩ := r
    obtain ⟨_, _, rest, _, _, _, _, hl, hs1⟩ := getKey_some hg
    have hl1 : s1.pins.length < s.pins.length := by rw [hs1]; exact hl
    unfold readKey
    obtain ⟨n, hn⟩ : ∃ n, s.pins.length = n + 1 := ⟨s.pins.length - 1, by omega⟩
    rw [hn]
    simp only [readKeyLoop, hg]
    rw [readKeyLoop_fuel n s1.pins.length s1 (by omega) le_rfl]

theorem getKey_frame {s : HW} {k : Char} {s1 : HW} (h : getKey s = some (k, s1)) :
    s1.strobes = s.strobes ∧ s1.LCD_D_P = s.LCD_D_P ∧ s1.LCD_C_P = s.LCD_C_P := by
  obtain ⟨_, _, _, _, _, _, _, _, hs1⟩ := getKey_some h
  rw [hs1]
  exact ⟨rfl, rfl, rfl⟩

/-- What a returning `do ... while` loop has done: it skipped the non-digit keys
`pre`, returned the digit `k`, and left the LCD alone. -/
theorem readKey_some :
    ∀ (n : Nat) (s : HW), s.pins.length ≤ n → ∀ (k : Char) (s1 : HW),
      readKey s = some (k, s1) →
        ∃ pre, keySeq s = pre ++ k :: keySeq s1 ∧ (∀ x ∈ pre, isDigitKey x = false) ∧
          isDigitKey k = true ∧ s1.strobes = s.strobes := by
  intro n
  induction n with
  | zero =>
    intro s hn k s1 h
    have hp : s.pins = [] := List.length_eq_zero.mp (by omega)
    rw [readKey_unfold, getKey_nil hp] at h
    cases h
  | succ n ih =>
    intro s hn k s1 h
    rw [readKey_unfold] at h
    cases hg : getKey s with
    | none => rw [hg] at h; cases h
    | some r =>
      obtain ⟨k0, s0⟩ := r
      rw [hg] at h
      simp only at h
      obtain ⟨_, _, rest, _, _, _, _, hl, hs0⟩ := getKey_some hg
      have hl0 : s0.pins.length < s.pins.length := by rw [hs0]; exact hl
      by_cases hd : k0 < '0' ∨ k0 > '9'
      · rw [if_pos hd] at h
        obtain ⟨pre, e, hpre, hk, hst⟩ := ih s0 (by omega) k s1 h
        refine ⟨k0 :: pre, ?_, ?_, hk, ?_⟩
        · rw [keySeq_some hg, e]; rfl
        · intro x hx
          rcases List.mem_cons.mp hx with rfl | hx
          · cases hx0 : isDigitKey x with
            | false => rfl
            | true => exact absurd hd ((isDigitKey_iff x).mp hx0)
          · exact hpre x hx
        · rw [hst, (getKey_frame hg).1]
      · rw [if_neg hd] at h
        cases h
        exact ⟨[], by rw [keySeq_some hg]; rfl, by simp, (isDigitKey_iff k).mpr hd,
          (getKey_frame hg).1⟩

/-- The `do ... while` loop returns as soon as a digit key is among the keys to
come. -/
theorem readKey_isSome :
    ∀ (n : Nat) (s : HW), s.pins.length ≤ n →
      (keySeq s).filter isDigitKey ≠ [] → ∃ r, readKey s = some r := by
  intro n
  induction n with
  | zero =>
    intro s hn h
    have hp : s.pins = [] := List.length_eq_zero.mp (by omega)
    rw [keySeq_none (getKey_nil hp)] at h
    simp at h
  | succ n ih =>
    intro s hn h
    cases hg : getKey s with
    | none =>
      rw [keySeq_none hg] at h
      simp at h
    | some r =>
      obtain ⟨k0, s0⟩ := r
      obtain ⟨_, _, rest, _, _, _, _, hl, hs0⟩ := getKey_some hg
      have hl0 : s0.pins.length < s.pins.length := by rw [hs0]; exact hl
      rw [readKey_unfold, hg]
      simp only
      by_cases hd : k0 < '0' ∨ k0 > '9'
      · rw [if_pos hd]
        apply ih s0 (by omega)
        have hk0 : isDigitKey k0 = false := by
          cases hx0 : isDigitKey k0 with
          | false => rfl
          | true => exact absurd hd ((isDigitKey_iff k0).mp hx0)
        rw [keySeq_some hg, List.filter_cons, hk0] at h
        simpa using h
      · rw [if_neg hd]
        exact ⟨_, rfl⟩

theorem filter_skip (pre : List Char) (k : Char) (rest : List Char)
    (hpre : ∀ x ∈ pre, isDigitKey x = false) (hk : isDigitKey k = true) :
    (pre ++ k :: rest).filter isDigitKey = k :: rest.filter isDigitKey := by
  have : pre.filter isDigitKey = [] := by
    rw [List.filter_eq_nil_iff]
    intro x hx
    simp [hpre x hx]
  rw [List.filter_append, this, List.filter_cons, hk]
  rfl

/-! ## The `for` loop of `readCode` -/

theorem range_succ_map {α : Type} (f : Nat → α) (n : Nat) :
    (List.range (n + 1)).map f = f 0 :: (List.range n).map (fun j => f (j + 1)) := by
  rw [List.range_succ_eq_map, List.map_cons, List.map_map]
  rfl

/-- Everything a returning `for` loop has done. -/
theorem readCodeLoop_some (mask : Nat) :
    ∀ (todo i : Nat) (buf : Nat → Char) (s : HW) (buf1 : Nat → Char) (s1 : HW),
      i + todo < 256 → readCodeLoop mask todo i buf s = some (buf1, s1) →
        ∃ consumed, keySeq s = consumed ++ keySeq s1 ∧
          (List.range todo).map (fun j => buf1 (i + j)) = consumed.filter isDigitKey ∧
          (∀ d ∈ consumed.getLast?, isDigitKey d = true) ∧
          (∀ j, j < i ∨ i + todo ≤ j → buf1 j = buf j) ∧
          Sends s s1 ((List.range todo).map (fun j => echoByte mask (buf1 (i + j)))) := by
  intro todo
  induction todo with
  | zero =>
    intro i buf s buf1 s1 _ h
    simp only [readCodeLoop] at h
    cases h
    exact ⟨[], by simp, by simp, by simp, fun _ _ => rfl, by simpa using Sends.refl s⟩
  | succ todo ih =>
    intro i buf s buf1 s1 hlt h
    unfold readCodeLoop at h
    rw [Nat.mod_eq_of_lt (show i + 1 < 256 by omega)] at h
    cases hr : readKey s with
    | none => rw [hr] at h; cases h
    | some r =>
      obtain ⟨k, sk⟩ := r
      rw [hr] at h
      simp only at h
      obtain ⟨pre, e, hpre, hk, hst⟩ := readKey_some _ s le_rfl k sk hr
      obtain ⟨c2, e2, hmap, hlast, hframe, hsend⟩ := ih (i + 1) _ _ buf1 s1 (by omega) h
      have hbi : buf1 i = k := by
        rw [hframe i (Or.inl (by omega))]
        simp [store]
      have hidx : ∀ j, buf1 (i + (j + 1)) = buf1 (i + 1 + j) := by
        intro j
        congr 1
        omega
      refine ⟨pre ++ k :: c2, ?_, ?_, ?_, ?_, ?_⟩
      · rw [e, ← keySeq_SEND_D_C (toUChar (if mask ≠ 0 then '*' else k)) 1 sk, e2]
        simp
      · rw [range_succ_map, filter_skip pre k c2 hpre hk, ← hmap]
        simp only [Nat.add_zero, hbi, hidx]
      · intro d hd
        rw [List.getLast?_append, List.getLast?_cons] at hd
        cases hc : c2.getLast? with
        | none =>
          rw [hc] at hd
          simp at hd
          rw [← hd]; exact hk
        | some x =>
          rw [hc] at hd
          simp at hd
          rw [← hd]
          exact hlast x (by rw [hc]; rfl)
      · intro j hj
        rw [hframe j (by omega)]
        have : j ≠ i := by omega
        simp [store, this]
      · have h1 : Sends s sk [] := Sends.of_strobes_eq hst
        have h2 := SEND_D_C_sends (toUChar (if mask ≠ 0 then '*' else k)) 1 sk
          (Nat.mod_lt _ (by norm_num))
        have h3 := (h1.trans h2).trans hsend
        rw [range_succ_map]
        simpa [echoByte, hbi, hidx] using h3

/-- The `for` loop returns when enough digit keys are to come. -/
theorem readCodeLoop_isSome (mask : Nat) :
    ∀ (todo i : Nat) (buf : Nat → Char) (s : HW),
      todo ≤ ((keySeq s).filter isDigitKey).length →
        ∃ r, readCodeLoop mask todo i buf s = some r := by
  intro todo
  induction todo with
  | zero => intro i buf s _; exact ⟨_, rfl⟩
  | succ todo ih =>
    intro i buf s h
    have hne : (keySeq s).filter isDigitKey ≠ [] := by
      intro e
      rw [e] at h
      simp at h
    obtain ⟨⟨k, sk⟩, hr⟩ := readKey_isSome _ s le_rfl hne
    obtain ⟨pre, e, hpre, hk, _⟩ := readKey_some _ s le_rfl k sk hr
    rw [e, filter_skip pre k _ hpre hk] at h
    unfold readCodeLoop
    rw [hr]
    simp only
    apply ih
    rw [keySeq_SEND_D_C]
    simpa using h

/-- Everything a returning `readCode` has done. -/
theorem readCode_some {buf : Nat → Char} {len mask : Nat} {s : HW} {buf1 : Nat → Char}
    {s1 : HW} (hlen : len < 256) (h : readCode buf len mask s = some (buf1, s1)) :
    ∃ consumed, keySeq s = consumed ++ keySeq s1 ∧
      (List.range len).map buf1 = consumed.filter isDigitKey ∧
      (∀ d ∈ consumed.getLast?, isDigitKey d = true) ∧
      buf1 len = '\x00' ∧ (∀ j, len < j → buf1 j = buf j) ∧
      Sends s s1 ((List.range len).map (fun j => echoByte mask (buf1 j))) := by
  unfold readCode at h
  cases hl : readCodeLoop mask len 0 buf s with
  | none => rw [hl] at h; cases h
  | some r =>
    obtain ⟨b, t⟩ := r
    rw [hl] at h
    have hb1 : buf1 = store b len '\x00' := by cases h; rfl
    have hs1 : s1 = t := by cases h; rfl
    subst hb1 hs1
    obtain ⟨consumed, e, hmap, hlast, hframe, hsend⟩ :=
      readCodeLoop_some mask len 0 buf s b s1 (by omega) hl
    have hb : ∀ j ∈ List.range len, store b len '\x00' j = b (0 + j) := by
      intro j hj
      have : j ≠ len := by have := List.mem_range.mp hj; omega
      simp [store, this]
    refine ⟨consumed, e, ?_, hlast, by simp [store], ?_, ?_⟩
    · rw [← hmap]
      exact List.map_congr_left hb
    · intro j hj
      have : j ≠ len := by omega
      simp only [store, this, if_false]
      exact hframe j (Or.inr (by omega))
    · have : (List.range len).map (fun j => echoByte mask (store b len '\x00' j))
          = (List.range len).map (fun j => echoByte mask (b (0 + j))) :=
        List.map_congr_left (fun j hj => by rw [hb j hj])
      rw [this]
      exact hsend

/-! ## Digits and the decimal conversion -/

theorem isDigitKey_toNat {k : Char} (h : isDigitKey k = true) :
    48 ≤ k.toNat ∧ k.toNat ≤ 57 := by
  have h1 := (isDigitKey_iff k).mp h
  simp only [not_or, not_lt, gt_iff_lt] at h1
  obtain ⟨h2, h3⟩ := h1
  rw [Char.le_def] at h2 h3
  exact ⟨h2, h3⟩

theorem char_eq_of_toNat {c d : Char} (h : c.toNat = d.toNat) : c = d :=
  Char.ext (UInt32.ext h)

theorem charToInt_ascii {c : Char} (h : c.toNat < 128) : charToInt c = c.toNat := by
  unfold charToInt
  have : c.toNat % 256 = c.toNat := Nat.mod_eq_of_lt (by omega)
  rw [this, if_pos h]

theorem charToInt_zero : charToInt '0' = 48 := by decide

theorem digits4_toNat {buf : Nat → Char} (h : digits4 buf = true) :
    ∀ i, i < 4 → 48 ≤ (buf i).toNat ∧ (buf i).toNat ≤ 57 := by
  simp only [digits4, Bool.and_eq_true] at h
  obtain ⟨⟨⟨h0, h1⟩, h2⟩, h3⟩ := h
  intro i hi
  interval_cases i
  · exact isDigitKey_toNat h0
  · exact isDigitKey_toNat h1
  · exact isDigitKey_toNat h2
  · exact isDigitKey_toNat h3

/-- On a buffer of four digits `toInt` is the decimal value, exactly. -/
theorem toInt_of_digits {buf : Nat → Char} (h : digits4 buf = true) :
    toInt buf = 1000 * ((buf 0).toNat - 48 : Int) + 100 * ((buf 1).toNat - 48 : Int)
      + 10 * ((buf 2).toNat - 48 : Int) + ((buf 3).toNat - 48 : Int) := by
  have hd := digits4_toNat h
  obtain ⟨a0, b0⟩ := hd 0 (by norm_num)
  obtain ⟨a1, b1⟩ := hd 1 (by norm_num)
  obtain ⟨a2, b2⟩ := hd 2 (by norm_num)
  obtain ⟨a3, b3⟩ := hd 3 (by norm_num)
  unfold toInt
  simp only [charToInt_zero, charToInt_ascii (show (buf 0).toNat < 128 by omega),
    charToInt_ascii (show (buf 1).toNat < 128 by omega),
    charToInt_ascii (show (buf 2).toNat < 128 by omega),
    charToInt_ascii (show (buf 3).toNat < 128 by omega), wrap16]
  omega

theorem ofNat_digit_toNat {a : Nat} (ha : a < 10) :
    (Char.ofNat ('0'.toNat + a)).toNat = 48 + a := by
  interval_cases a <;> rfl

theorem ofNat_digit_isDigitKey {a : Nat} (ha : a < 10) :
    isDigitKey (Char.ofNat ('0'.toNat + a)) = true := by
  interval_cases a <;> rfl

/-! ## The check of the main loop -/

theorem main_check_sends (idBuf pwdBuf : Nat → Char) (s : HW) :
    Sends s (main_check idBuf pwdBuf s)
      ([(false, 0x01), (false, 0x80)] ++
        (if granted (toInt idBuf) (toInt pwdBuf) then "Access Granted".toList
          else "Access Denied".toList).map (fun c => (true, toUChar c))) := by
  have h1 := SEND_D_C_sends 0x01 0 s (by norm_num)
  have h2 := LCD_X_Y_sends 0 0 (SEND_D_C 0x01 0 s)
  have h12 := h1.trans h2
  unfold main_check
  simp only
  by_cases hg : granted (toInt idBuf) (toInt pwdBuf)
  · have hg' := hg
    unfold granted at hg'
    rw [if_pos hg', if_pos hg]
    have h3 := LCD_D_C_ST_sends "Access Granted".toList (LCD_X_Y 0 0 (SEND_D_C 0x01 0 s))
      (by decide)
    simpa using h12.trans h3
  · have hg' := hg
    unfold granted at hg'
    rw [if_neg hg', if_neg hg]
    have h3 := LCD_D_C_ST_sends "Access Denied".toList (LCD_X_Y 0 0 (SEND_D_C 0x01 0 s))
      (by decide)
    simpa using h12.trans h3

/-- The text that the check puts on the LCD. -/
theorem main_check_text (idBuf pwdBuf : Nat → Char) (s : HW) :
    lcdText (emitted s (main_check idBuf pwdBuf s)) =
      if granted (toInt idBuf) (toInt pwdBuf) then "Access Granted".toList
      else "Access Denied".toList := by
  unfold lcdText
  rw [(sends_emitted (main_check_sends idBuf pwdBuf s)).2.2]
  by_cases hg : granted (toInt idBuf) (toInt pwdBuf)
  · rw [if_pos hg]; decide
  · rw [if_neg hg]; decide

theorem toInt_digits_inj {b1 b2 : Nat → Char} (h1 : digits4 b1 = true)
    (h2 : digits4 b2 = true) (h : toInt b1 = toInt b2) : ∀ i, i < 4 → b1 i = b2 i := by
  rw [toInt_of_digits h1, toInt_of_digits h2] at h
  have d1 := digits4_toNat h1
  have d2 := digits4_toNat h2
  have a0 := d1 0 (by norm_num)
  have a1 := d1 1 (by norm_num)
  have a2 := d1 2 (by norm_num)
  have a3 := d1 3 (by norm_num)
  have c0 := d2 0 (by norm_num)
  have c1 := d2 1 (by norm_num)
  have c2 := d2 2 (by norm_num)
  have c3 := d2 3 (by norm_num)
  intro i hi
  apply char_eq_of_toNat
  interval_cases i <;> omega

/-- The readings of a returning `readCode(buf, 4, mask)` are four digits. -/
theorem readCode_digits4 {buf : Nat → Char} {mask : Nat} {s : HW} {buf1 : Nat → Char}
    {s1 : HW} (h : readCode buf 4 mask s = some (buf1, s1)) : digits4 buf1 = true := by
  obtain ⟨consumed, _, hmap, _⟩ := readCode_some (by norm_num) h
  have hd : ∀ j, j < 4 → isDigitKey (buf1 j) = true := by
    intro j hj
    have hmem : buf1 j ∈ consumed.filter isDigitKey := by
      rw [← hmap]
      exact List.mem_map_of_mem buf1 (List.mem_range.mpr hj)
    exact List.of_mem_filter hmem
  simp [digits4, hd]

/-- A four-digit buffer whose value lies in 2330..2340 spells one of the eleven
strings. -/
theorem digits_in_range_mem {buf : Nat → Char} (h : digits4 buf = true)
    (h1 : 2330 ≤ toInt buf) (h2 : toInt buf ≤ 2340) :
    [buf 0, buf 1, buf 2, buf 3] ∈ grantedIDs := by
  rw [toInt_of_digits h] at h1 h2
  have d := digits4_toNat h
  have a0 := d 0 (by norm_num)
  have a1 := d 1 (by norm_num)
  have a2 := d 2 (by norm_num)
  have a3 := d 3 (by norm_num)
  have e0 : buf 0 = '2' := char_eq_of_toNat (show (buf 0).toNat = 50 by omega)
  have e1 : buf 1 = '3' := char_eq_of_toNat (show (buf 1).toNat = 51 by omega)
  have e23 : (buf 2).toNat = 51 ∨ ((buf 2).toNat = 52 ∧ (buf 3).toNat = 48) := by omega
  rw [e0, e1]
  rcases e23 with e2 | ⟨e2, e3⟩
  · have e2' : buf 2 = '3' := char_eq_of_toNat e2
    rw [e2']
    have e3 : (buf 3).toNat = 48 ∨ (buf 3).toNat = 49 ∨ (buf 3).toNat = 50 ∨
        (buf 3).toNat = 51 ∨ (buf 3).toNat = 52 ∨ (buf 3).toNat = 53 ∨ (buf 3).toNat = 54 ∨
        (buf 3).toNat = 55 ∨ (buf 3).toNat = 56 ∨ (buf 3).toNat = 57 := by omega
    rcases e3 with e | e | e | e | e | e | e | e | e | e
    · rw [show buf 3 = '0' from char_eq_of_toNat e]; decide
    · rw [show buf 3 = '1' from char_eq_of_toNat e]; decide
    · rw [show buf 3 = '2' from char_eq_of_toNat e]; decide
    · rw [show buf 3 = '3' from char_eq_of_toNat e]; decide
    · rw [show buf 3 = '4' from char_eq_of_toNat e]; decide
    · rw [show buf 3 = '5' from char_eq_of_toNat e]; decide
    · rw [show buf 3 = '6' from char_eq_of_toNat e]; decide
    · rw [show buf 3 = '7' from char_eq_of_toNat e]; decide
    · rw [show buf 3 = '8' from char_eq_of_toNat e]; decide
    · rw [show buf 3 = '9' from char_eq_of_toNat e]; decide
  · rw [show buf 2 = '4' from char_eq_of_toNat e2, show buf 3 = '0' from char_eq_of_toNat e3]
    decide

/-- A buffer that spells one of the eleven strings has four digits and a value
in 2330..2340. -/
theorem mem_digits_in_range {buf : Nat → Char}
    (h : [buf 0, buf 1, buf 2, buf 3] ∈ grantedIDs) :
    digits4 buf = true ∧ 2330 ≤ toInt buf ∧ toInt buf ≤ 2340 := by
  have key : ∀ l ∈ grantedIDs,
      l.all isDigitKey = true ∧ 2330 ≤ decimal4 l ∧ decimal4 l ≤ 2340 := by decide
  obtain ⟨k1, k2, k3⟩ := key _ h
  have hd : digits4 buf = true := by
    simp only [List.all_cons, List.all_nil, Bool.and_true, Bool.and_eq_true] at k1
    simp only [digits4, Bool.and_eq_true]
    exact ⟨⟨⟨k1.1, k1.2.1⟩, k1.2.2.1⟩, k1.2.2.2⟩
  rw [toInt_of_digits hd]
  exact ⟨hd, k2, k3⟩

/-! ## The specification's properties -/

/-- C2: if the first four characters of `buf` are the ASCII digits of `a`, `b`,
`c`, `d` (each below 10), then `toInt buf` is exactly
`1000*a + 100*b + 10*c + d`. -/
theorem toInt_decimal (buf : Nat → Char) (a b c d : Nat)
    (ha : a < 10) (hb : b < 10) (hc : c < 10) (hd : d < 10)
    (h0 : buf 0 = Char.ofNat ('0'.toNat + a)) (h1 : buf 1 = Char.ofNat ('0'.toNat + b))
    (h2 : buf 2 = Char.ofNat ('0'.toNat + c)) (h3 : buf 3 = Char.ofNat ('0'.toNat + d)) :
    toInt buf = 1000 * (a : Int) + 100 * (b : Int) + 10 * (c : Int) + (d : Int) := by
  have hdig : digits4 buf = true := by
    simp only [digits4, h0, h1, h2, h3, ofNat_digit_isDigitKey ha, ofNat_digit_isDigitKey hb,
      ofNat_digit_isDigitKey hc, ofNat_digit_isDigitKey hd, Bool.and_self]
  rw [toInt_of_digits hdig, h0, h1, h2, h3, ofNat_digit_toNat ha, ofNat_digit_toNat hb,
    ofNat_digit_toNat hc, ofNat_digit_toNat hd]
  push_cast
  omega

/-- C2 at the buffer "2335": the digits 2, 3, 3, 5 give 2335. -/
theorem toInt_decimal_witness :
    bufOf "2335" 0 = Char.ofNat ('0'.toNat + 2) ∧ bufOf "2335" 1 = Char.ofNat ('0'.toNat + 3) ∧
      bufOf "2335" 2 = Char.ofNat ('0'.toNat + 3) ∧ bufOf "2335" 3 = Char.ofNat ('0'.toNat + 5) ∧
      toInt (bufOf "2335") = 1000 * ((2 : Nat) : Int) + 100 * ((3 : Nat) : Int)
        + 10 * ((3 : Nat) : Int) + ((5 : Nat) : Int) :=
  ⟨by decide, by decide, by decide, by decide,
    toInt_decimal (bufOf "2335") 2 3 3 5 (by decide) (by decide) (by decide) (by decide)
      (by decide) (by decide) (by decide) (by decide)⟩

/-- C6: for a byte `a` and any flag `t`, `SEND_D_C a t` adds exactly two enable
pulses to the log.  During the first the low four data lines carry `a >> 4`,
during the second `a & 0x0F`, and `(first << 4) | second` is `a` again.  During
both pulses `RS` is high exactly when `t` is non-zero and `RW` is low, and the
upper four bits of the data port are those from before the call (also once the
call is over). -/
theorem SEND_D_C_two_strobes (a t : Nat) (s : HW) (ha : a < 256) :
    ∃ first second : Strobe,
      (SEND_D_C a t s).strobes = s.strobes ++ [first, second] ∧
      first.data &&& 0x0F = a >>> 4 ∧
      second.data &&& 0x0F = a &&& 0x0F ∧
      ((first.data &&& 0x0F) <<< 4) ||| (second.data &&& 0x0F) = a ∧
      (first.ctrl.testBit RS = true ↔ t ≠ 0) ∧ (second.ctrl.testBit RS = true ↔ t ≠ 0) ∧
      first.ctrl.testBit RW = false ∧ second.ctrl.testBit RW = false ∧
      first.data &&& 0xF0 = s.LCD_D_P &&& 0xF0 ∧ second.data &&& 0xF0 = s.LCD_D_P &&& 0xF0 ∧
      (SEND_D_C a t s).LCD_D_P &&& 0xF0 = s.LCD_D_P &&& 0xF0 := by
  refine ⟨Strobe.mk (hiData a s.LCD_D_P) (hiCtrl t s.LCD_C_P),
    Strobe.mk (loData a s.LCD_D_P) (loCtrl t s.LCD_C_P), SEND_D_C_strobes_eq a t s, ?_, ?_,
    nibbles_join a _ _ ha, ?_, ?_, (hiCtrl_bits t _).2.1, (loCtrl_bits t _).2.1, ?_, ?_, ?_⟩
  · simp only [and_0F, shr4, hiData_eq]; omega
  · simp only [and_0F, loData_eq]; omega
  · simp [(hiCtrl_bits t s.LCD_C_P).1]
  · simp [(loCtrl_bits t s.LCD_C_P).1]
  · simp only [and_F0, hiData_eq]; omega
  · simp only [and_F0, loData_eq]; omega
  · simp only [SEND_D_C_data, and_F0, loData_eq]; omega

/-- C6 for the data byte `0xA7` sent from the cleared state. -/
theorem SEND_D_C_two_strobes_witness :
    0xA7 < 256 ∧
    ∃ first second : Strobe,
      (SEND_D_C 0xA7 1 (hw0 [])).strobes = (hw0 []).strobes ++ [first, second] ∧
      first.data &&& 0x0F = 0xA7 >>> 4 ∧
      second.data &&& 0x0F = 0xA7 &&& 0x0F ∧
      ((first.data &&& 0x0F) <<< 4) ||| (second.data &&& 0x0F) = 0xA7 ∧
      (first.ctrl.testBit RS = true ↔ 1 ≠ 0) ∧ (second.ctrl.testBit RS = true ↔ 1 ≠ 0) ∧
      first.ctrl.testBit RW = false ∧ second.ctrl.testBit RW = false ∧
      first.data &&& 0xF0 = (hw0 []).LCD_D_P &&& 0xF0 ∧
      second.data &&& 0xF0 = (hw0 []).LCD_D_P &&& 0xF0 ∧
      (SEND_D_C 0xA7 1 (hw0 [])).LCD_D_P &&& 0xF0 = (hw0 []).LCD_D_P &&& 0xF0 :=
  ⟨by decide, SEND_D_C_two_strobes 0xA7 1 (hw0 []) (by decide)⟩

/-- C7: `LCD_X_Y x y` adds exactly two pulses, which carry one byte with `RS`
low: `(0x80 + x) mod 256` for `y = 0` and `(0xC0 + x) mod 256` for `y = 1`.  For
`x < 64` both bytes have bit 7 set, their low six bits are `x`, and they
differ. -/
theorem LCD_X_Y_command (x y : Nat) (s : HW) :
    (LCD_X_Y x y s).strobes = s.strobes ++ emitted s (LCD_X_Y x y s) ∧
    (emitted s (LCD_X_Y x y s)).length = 2 ∧
    (y = 0 → lcdBytes (emitted s (LCD_X_Y x y s)) = [(false, (0x80 + x) % 256)]) ∧
    (y = 1 → lcdBytes (emitted s (LCD_X_Y x y s)) = [(false, (0xC0 + x) % 256)]) ∧
    (x < 64 →
      ((0x80 + x) % 256).testBit 7 = true ∧ ((0xC0 + x) % 256).testBit 7 = true ∧
      ((0x80 + x) % 256) &&& 0x3F = x ∧ ((0xC0 + x) % 256) &&& 0x3F = x ∧
      (0x80 + x) % 256 ≠ (0xC0 + x) % 256) := by
  obtain ⟨e1, e2, e3⟩ := sends_emitted (LCD_X_Y_sends x y s)
  refine ⟨e1, by simpa using e2, ?_, ?_, ?_⟩
  · intro hy
    rw [e3, if_pos hy]
  · intro hy
    rw [e3, if_neg (by omega)]
  · intro hx
    have h6 : ∀ n : Nat, n &&& 0x3F = n % 64 := fun n => Nat.and_pow_two_sub_one_eq_mod n 6
    rw [Nat.testBit_to_div_mod, Nat.testBit_to_div_mod, h6, h6]
    refine ⟨?_, ?_, ?_, ?_, ?_⟩
    · simp only [decide_eq_true_eq]; omega
    · simp only [decide_eq_true_eq]; omega
    · omega
    · omega
    · omega

/-- C7 at column 5: row 0 gives the command `0x85`, row 1 the command `0xC5`. -/
theorem LCD_X_Y_command_witness :
    lcdBytes (emitted (hw0 []) (LCD_X_Y 5 0 (hw0 []))) = [(false, 0x85)] ∧
    lcdBytes (emitted (hw0 []) (LCD_X_Y 5 1 (hw0 []))) = [(false, 0xC5)] ∧
    (Nat.testBit 0x85 7 = true ∧ Nat.testBit 0xC5 7 = true ∧
      0x85 &&& 0x3F = 5 ∧ 0xC5 &&& 0x3F = 5 ∧ 0x85 ≠ 0xC5) :=
  ⟨(LCD_X_Y_command 5 0 (hw0 [])).2.2.1 rfl, (LCD_X_Y_command 5 1 (hw0 [])).2.2.2.1 rfl,
    (LCD_X_Y_command 5 0 (hw0 [])).2.2.2.2 (by decide)⟩

/-- C3: for a length `len` (a `uint8_t`), when the keys that successive `getKey`
calls are going to return hold at least `len` digits, `readCode buf len mask`
returns.  The keys it has taken
(`consumed`) are a prefix of that sequence with exactly `len` digits in it that
ends with a digit (so nothing after the `len`-th digit is taken); the keys left
are those after the prefix.  `buf[0..len-1]` are the first `len` digit keys in
order, every other key being dropped, `buf[len]` is NUL, and the buffer beyond
is untouched. -/
theorem readCode_reads_digits (buf : Nat → Char) (len mask : Nat) (s : HW)
    (hlen : len < 256) (h : len ≤ ((keySeq s).filter isDigitKey).length) :
    ∃ (buf1 : Nat → Char) (s1 : HW) (consumed : List Char),
      readCode buf len mask s = some (buf1, s1) ∧
      keySeq s = consumed ++ keySeq s1 ∧
      (consumed.filter isDigitKey).length = len ∧
      (∀ d ∈ consumed.getLast?, isDigitKey d = true) ∧
      (List.range len).map buf1 = ((keySeq s).filter isDigitKey).take len ∧
      buf1 len = '\x00' ∧
      (∀ j, len < j → buf1 j = buf j) := by
  obtain ⟨⟨b, t⟩, hl⟩ := readCodeLoop_isSome mask len 0 buf s h
  have hr : readCode buf len mask s = some (store b len '\x00', t) := by
    unfold readCode
    rw [hl]
  obtain ⟨consumed, e, hmap, hlast, hnul, hframe, _⟩ := readCode_some hlen hr
  have hlen : (consumed.filter isDigitKey).length = len := by
    rw [← hmap]
    simp
  refine ⟨_, t, consumed, hr, e, hlen, hlast, ?_, hnul, hframe⟩
  rw [hmap, e, List.filter_append, List.take_left' hlen]

/-- C3 on the key presses `A`, `2`, `3`, `3`, `0` with `len = 4`: the buffer
becomes "2330" followed by NUL. -/
theorem readCode_reads_digits_witness :
    keySeq (hw0 pinsA2330) = ['A', '2', '3', '3', '0'] ∧
    (readCode (bufOf "") 4 0 (hw0 pinsA2330)).map (fun r => (List.range 5).map r.1)
      = some ['2', '3', '3', '0', '\x00'] ∧
    4 < 256 ∧ 4 ≤ ((keySeq (hw0 pinsA2330)).filter isDigitKey).length ∧
    ∃ (buf1 : Nat → Char) (s1 : HW) (consumed : List Char),
      readCode (bufOf "") 4 0 (hw0 pinsA2330) = some (buf1, s1) ∧
      keySeq (hw0 pinsA2330) = consumed ++ keySeq s1 ∧
      (consumed.filter isDigitKey).length = 4 ∧
      (∀ d ∈ consumed.getLast?, isDigitKey d = true) ∧
      (List.range 4).map buf1 = ((keySeq (hw0 pinsA2330)).filter isDigitKey).take 4 ∧
      buf1 4 = '\x00' ∧
      (∀ j, 4 < j → buf1 j = bufOf "" j) :=
  ⟨by decide, by decide, by decide, by decide,
    readCode_reads_digits (bufOf "") 4 0 (hw0 pinsA2330) (by decide) (by decide)⟩

/-- C4: when `readCode buf len mask` (with `len` a `uint8_t`) returns, the
pulses it added to the log carry exactly `len` bytes, all of them data (`RS` high), whatever the number of
keys dropped on the way: with `mask` set each byte is `'*'`, with `mask = 0` the
`i`-th byte is the character `buf[i]`, which is the `i`-th digit among the keys
taken. -/
theorem readCode_echo (buf : Nat → Char) (len mask : Nat) (s : HW) (buf1 : Nat → Char)
    (s1 : HW) (hlen : len < 256) (h : readCode buf len mask s = some (buf1, s1)) :
    s1.strobes = s.strobes ++ emitted s s1 ∧
    (emitted s s1).length = 2 * len ∧
    (lcdBytes (emitted s s1)).length = len ∧
    (mask ≠ 0 → lcdBytes (emitted s s1) = List.replicate len (true, '*'.toNat)) ∧
    (mask = 0 →
      lcdBytes (emitted s s1) = (List.range len).map (fun i => (true, (buf1 i).toNat))) ∧
    ∃ consumed, keySeq s = consumed ++ keySeq s1 ∧
      (List.range len).map buf1 = consumed.filter isDigitKey := by
  obtain ⟨consumed, e, hmap, _, _, _, hsend⟩ := readCode_some hlen h
  obtain ⟨e1, e2, e3⟩ := sends_emitted hsend
  refine ⟨e1, by simpa using e2, by rw [e3]; simp, ?_, ?_, consumed, e, hmap⟩
  · intro hm
    rw [e3]
    have : (fun j => echoByte mask (buf1 j)) = fun _ => (true, '*'.toNat) := by
      funext j
      simp only [echoByte, hm, ne_eq, not_false_eq_true, if_true]
      rfl
    rw [this, List.map_const']
    simp
  · intro hm
    rw [e3]
    apply List.map_congr_left
    intro j hj
    have hmem : buf1 j ∈ consumed.filter isDigitKey := by
      rw [← hmap]
      exact List.mem_map_of_mem buf1 hj
    have hd := isDigitKey_toNat (List.of_mem_filter hmem)
    simp only [echoByte, hm, ne_eq, not_true_eq_false, if_false, toUChar]
    rw [Nat.mod_eq_of_lt (by omega)]

/-- C4 on the key presses `A`, `2`, `3`, `3`, `0` with `len = 4`: masked entry
shows four stars, plain entry shows "2330". -/
theorem readCode_echo_witness :
    (∃ (buf1 : Nat → Char) (s1 : HW),
      readCode (bufOf "") 4 1 (hw0 pinsA2330) = some (buf1, s1) ∧
      lcdBytes (emitted (hw0 pinsA2330) s1) = List.replicate 4 (true, '*'.toNat)) ∧
    (∃ (buf1 : Nat → Char) (s1 : HW),
      readCode (bufOf "") 4 0 (hw0 pinsA2330) = some (buf1, s1) ∧
      lcdBytes (emitted (hw0 pinsA2330) s1)
        = (List.range 4).map (fun i => (true, (buf1 i).toNat))) ∧
    (readCode (bufOf "") 4 0 (hw0 pinsA2330)).map
        (fun r => lcdText (emitted (hw0 pinsA2330) r.2)) = some "2330".toList := by
  have hm : (readCode (bufOf "") 4 1 (hw0 pinsA2330)).isSome = true := by decide
  have hp : (readCode (bufOf "") 4 0 (hw0 pinsA2330)).isSome = true := by decide
  obtain ⟨⟨b1, t1⟩, h1⟩ := Option.isSome_iff_exists.mp hm
  obtain ⟨⟨b0, t0⟩, h0⟩ := Option.isSome_iff_exists.mp hp
  exact ⟨⟨b1, t1, h1, (readCode_echo _ _ _ _ _ _ (by decide) h1).2.2.2.1 (by decide)⟩,
    ⟨b0, t0, h0, (readCode_echo _ _ _ _ _ _ (by decide) h0).2.2.2.2.1 rfl⟩, by decide⟩

/-- C5: whenever `getKey` returns, the scan stopped at a position `(row, col)`
with `row < 4` and `col < 4`, the character returned is the table entry
`keymap[row][col]`, and it is one of `0`..`9`, `/`, `*`, `-`, `+`, `=`, `A`. -/
theorem getKey_in_keymap (s : HW) (k : Char) (s1 : HW) (h : getKey s = some (k, s1)) :
    ∃ row col rest,
      scanFrom 0 0 (rowDrive 0) s.pins = some (row, col, rowDrive row, rest) ∧
      row < 4 ∧ col < 4 ∧ keymapAt row col = some k ∧
      k ∈ ['0', '1', '2', '3', '4', '5', '6', '7', '8', '9', '/', '*', '-', '+', '=', 'A'] := by
  obtain ⟨row, col, rest, e, hr, hc, hk, _, _⟩ := getKey_some h
  obtain ⟨h1, h2⟩ := keymapRead_mem hr hc
  rw [hk]
  exact ⟨row, col, rest, e, hr, hc, h1, h2⟩

/-- C5 on readings that show column 1 low while row 1 is scanned: the key is
`5`. -/
theorem getKey_in_keymap_witness :
    getKey (hw0 (press 1 1)) = some ('5', ⟨0, 0, rowDrive 1, 0xF0, [], []⟩) ∧
    ∃ row col rest,
      scanFrom 0 0 (rowDrive 0) (hw0 (press 1 1)).pins = some (row, col, rowDrive row, rest) ∧
      row < 4 ∧ col < 4 ∧ keymapAt row col = some '5' ∧
      '5' ∈ ['0', '1', '2', '3', '4', '5', '6', '7', '8', '9', '/', '*', '-', '+', '=', 'A'] :=
  ⟨by decide, getKey_in_keymap (hw0 (press 1 1)) '5' ⟨0, 0, rowDrive 1, 0xF0, [], []⟩ (by decide)⟩

/-- C8: for `row < 4` the byte `0x0F | (~(1 << (row + 4)) & 0xF0)` that `getKey`
writes to the keypad port for that row has bit `row + 4` clear and the seven
other bits set; and when `getKey` returns a key found in row `r`, the port holds
the byte of row `r`. -/
theorem rowDrive_bits (row : Nat) (h : row < 4) :
    rowDrive row < 256 ∧
    (rowDrive row).testBit (row + 4) = false ∧
    (∀ b, b < 8 → b ≠ row + 4 → (rowDrive row).testBit b = true) ∧
    (∀ (s : HW) (k : Char) (s1 : HW), getKey s = some (k, s1) →
      ∃ r c rest, scanFrom 0 0 (rowDrive 0) s.pins = some (r, c, rowDrive r, rest) ∧
        s1.KP_PORT = rowDrive r) := by
  refine ⟨?_, ?_, ?_, ?_⟩
  · interval_cases row <;> decide
  · interval_cases row <;> decide
  · intro b hb hne
    interval_cases row <;> interval_cases b <;> first | rfl | exact absurd rfl hne
  · intro s k s1 hg
    obtain ⟨r, c, rest, e, _, _, _, _, hs1⟩ := getKey_some hg
    exact ⟨r, c, rest, e, by rw [hs1]⟩

/-- C8 for row 2: the byte is `0xBF`, bit 6 clear and every other bit set. -/
theorem rowDrive_bits_witness :
    2 < 4 ∧ rowDrive 2 = 0xBF ∧
    (rowDrive 2 < 256 ∧
    (rowDrive 2).testBit (2 + 4) = false ∧
    (∀ b, b < 8 → b ≠ 2 + 4 → (rowDrive 2).testBit b = true) ∧
    (∀ (s : HW) (k : Char) (s1 : HW), getKey s = some (k, s1) →
      ∃ r c rest, scanFrom 0 0 (rowDrive 0) s.pins = some (r, c, rowDrive r, rest) ∧
        s1.KP_PORT = rowDrive r)) :=
  ⟨by decide, by decide, rowDrive_bits 2 (by decide)⟩

/-- C1: for two buffers of four digits each, the text that the check of the main
loop puts on the LCD is "Access Granted" exactly when `toInt idBuf` lies in
2330..2340 and `toInt pwdBuf` equals it; in every other case the text is
"Access Denied".  (Both values compared lie in 0..9999.) -/
theorem main_check_message (idBuf pwdBuf : Nat → Char) (s : HW)
    (hid : digits4 idBuf = true) (hpwd : digits4 pwdBuf = true) :
    (lcdText (emitted s (main_check idBuf pwdBuf s)) = "Access Granted".toList ↔
      (2330 ≤ toInt idBuf ∧ toInt idBuf ≤ 2340) ∧ toInt pwdBuf = toInt idBuf) ∧
    (¬ ((2330 ≤ toInt idBuf ∧ toInt idBuf ≤ 2340) ∧ toInt pwdBuf = toInt idBuf) →
      lcdText (emitted s (main_check idBuf pwdBuf s)) = "Access Denied".toList) ∧
    0 ≤ toInt idBuf ∧ toInt idBuf ≤ 9999 ∧ 0 ≤ toInt pwdBuf ∧ toInt pwdBuf ≤ 9999 := by
  have hiff : granted (toInt idBuf) (toInt pwdBuf) ↔
      (2330 ≤ toInt idBuf ∧ toInt idBuf ≤ 2340) ∧ toInt pwdBuf = toInt idBuf := by
    unfold granted
    constructor
    · rintro ⟨⟨a, b⟩, c⟩; exact ⟨⟨a, b⟩, c.symm⟩
    · rintro ⟨⟨a, b⟩, c⟩; exact ⟨⟨a, b⟩, c.symm⟩
  have d1 := digits4_toNat hid
  have d2 := digits4_toNat hpwd
  have a0 := d1 0 (by norm_num)
  have a1 := d1 1 (by norm_num)
  have a2 := d1 2 (by norm_num)
  have a3 := d1 3 (by norm_num)
  have c0 := d2 0 (by norm_num)
  have c1 := d2 1 (by norm_num)
  have c2 := d2 2 (by norm_num)
  have c3 := d2 3 (by norm_num)
  have e1 := toInt_of_digits hid
  have e2 := toInt_of_digits hpwd
  rw [main_check_text]
  refine ⟨?_, ?_, by omega, by omega, by omega, by omega⟩
  · rw [← hiff]
    by_cases hg : granted (toInt idBuf) (toInt pwdBuf)
    · simp [hg]
    · rw [if_neg hg]
      simp only [hg, iff_false]
      decide
  · intro hn
    rw [if_neg (fun hg => hn (hiff.mp hg))]

/-- C1 on the specification's examples: ("2335", "2335") is granted,
("2335", "2336") and ("1000", "1000") are denied. -/
theorem main_check_message_witness :
    lcdText (emitted (hw0 []) (main_check (bufOf "2335") (bufOf "2335") (hw0 [])))
      = "Access Granted".toList ∧
    lcdText (emitted (hw0 []) (main_check (bufOf "2335") (bufOf "2336") (hw0 [])))
      = "Access Denied".toList ∧
    lcdText (emitted (hw0 []) (main_check (bufOf "1000") (bufOf "1000") (hw0 [])))
      = "Access Denied".toList ∧
    digits4 (bufOf "2335") = true ∧ digits4 (bufOf "2336") = true ∧
    ((2330 ≤ toInt (bufOf "2335") ∧ toInt (bufOf "2335") ≤ 2340) ∧
      toInt (bufOf "2335") = toInt (bufOf "2335")) ∧
    ¬ ((2330 ≤ toInt (bufOf "2335") ∧ toInt (bufOf "2335") ≤ 2340) ∧
      toInt (bufOf "2336") = toInt (bufOf "2335")) :=
  ⟨(main_check_message (bufOf "2335") (bufOf "2335") (hw0 []) (by decide) (by decide)).1.mpr
      (by decide),
    (main_check_message (bufOf "2335") (bufOf "2336") (hw0 []) (by decide) (by decide)).2.1
      (by decide),
    (main_check_message (bufOf "1000") (bufOf "1000") (hw0 []) (by decide) (by decide)).2.1
      (by decide),
    by decide, by decide, by decide, by decide⟩

/-- C9: on buffers of four digits `toInt` is injective; hence the check shows
"Access Granted" only if `pwdBuf` equals `idBuf` in each of the four
characters; and an ID buffer of four digits can be granted (with some four-digit
password) exactly when it spells one of "2330", "2331", ..., "2340". -/
theorem toInt_injective_granted :
    (∀ b1 b2 : Nat → Char, digits4 b1 = true → digits4 b2 = true →
      toInt b1 = toInt b2 → ∀ i, i < 4 → b1 i = b2 i) ∧
    (∀ (idBuf pwdBuf : Nat → Char) (s : HW), digits4 idBuf = true → digits4 pwdBuf = true →
      lcdText (emitted s (main_check idBuf pwdBuf s)) = "Access Granted".toList →
        ∀ i, i < 4 → pwdBuf i = idBuf i) ∧
    (∀ idBuf : Nat → Char, digits4 idBuf = true →
      ((∃ (pwdBuf : Nat → Char) (s : HW), digits4 pwdBuf = true ∧
          lcdText (emitted s (main_check idBuf pwdBuf s)) = "Access Granted".toList) ↔
        [idBuf 0, idBuf 1, idBuf 2, idBuf 3] ∈ grantedIDs)) := by
  have hgr : ∀ (idBuf pwdBuf : Nat → Char) (s : HW),
      lcdText (emitted s (main_check idBuf pwdBuf s)) = "Access Granted".toList →
        granted (toInt idBuf) (toInt pwdBuf) := by
    intro idBuf pwdBuf s h
    rw [main_check_text] at h
    by_cases hg : granted (toInt idBuf) (toInt pwdBuf)
    · exact hg
    · rw [if_neg hg] at h
      exact absurd h (by decide)
  refine ⟨fun b1 b2 h1 h2 h => toInt_digits_inj h1 h2 h, ?_, ?_⟩
  · intro idBuf pwdBuf s hid hpwd h
    exact toInt_digits_inj hpwd hid (hgr idBuf pwdBuf s h).2.symm
  · intro idBuf hid
    constructor
    · rintro ⟨pwdBuf, s, _, h⟩
      obtain ⟨⟨h1, h2⟩, _⟩ := hgr idBuf pwdBuf s h
      exact digits_in_range_mem hid h1 h2
    · intro hmem
      obtain ⟨_, h1, h2⟩ := mem_digits_in_range hmem
      refine ⟨idBuf, hw0 [], hid, ?_⟩
      rw [main_check_text, if_pos ⟨⟨h1, h2⟩, rfl⟩]

/-- C9 on "2335" and "2340": equal values force equal characters, a grant forces
the password "2335", and "2340" is among the grantable IDs. -/
theorem toInt_injective_granted_witness :
    (digits4 (bufOf "2335") = true ∧ toInt (bufOf "2335") = toInt (bufOf "2335\x00--") ∧
      ∀ i, i < 4 → bufOf "2335" i = bufOf "2335\x00--" i) ∧
    (lcdText (emitted (hw0 []) (main_check (bufOf "2335") (bufOf "2335") (hw0 [])))
        = "Access Granted".toList ∧
      ∀ i, i < 4 → bufOf "2335" i = bufOf "2335" i) ∧
    (digits4 (bufOf "2340") = true ∧
      ((∃ (pwdBuf : Nat → Char) (s : HW), digits4 pwdBuf = true ∧
          lcdText (emitted s (main_check (bufOf "2340") pwdBuf s)) = "Access Granted".toList) ↔
        [bufOf "2340" 0, bufOf "2340" 1, bufOf "2340" 2, bufOf "2340" 3] ∈ grantedIDs)) :=
  ⟨⟨by decide, by decide,
      toInt_injective_granted.1 (bufOf "2335") (bufOf "2335\x00--") (by decide) (by decide)
        (by decide)⟩,
    ⟨by decide,
      toInt_injective_granted.2.1 (bufOf "2335") (bufOf "2335") (hw0 []) (by decide)
        (by decide) (by decide)⟩,
    ⟨by decide, toInt_injective_granted.2.2 (bufOf "2340") (by decide)⟩⟩

/-- C10: on a buffer of four digits every operation of `toInt` (the digit
differences, the products, the partial sums, the result) has a mathematical
value in 0..9999, well inside the 16-bit `int`, and the wrapped computation
equals the mathematical value; and the two buffers that a pass of the main loop
hands to `toInt` after the two `readCode` calls are buffers of four digits, so
all of this holds for them. -/
theorem toInt_no_overflow :
    (∀ buf : Nat → Char, digits4 buf = true →
      (∀ v ∈ toIntSteps buf, 0 ≤ v ∧ v ≤ 9999) ∧ toInt buf = toIntExact buf ∧
        0 ≤ toInt buf ∧ toInt buf ≤ 9999) ∧
    (∀ (idBuf pwdBuf : Nat → Char) (s : HW) (id1 pwd1 : Nat → Char) (s1 : HW),
      main_iteration idBuf pwdBuf s = some (id1, pwd1, s1) →
        (∃ s0, s1 = main_check id1 pwd1 s0) ∧ digits4 id1 = true ∧ digits4 pwd1 = true ∧
        (∀ v ∈ toIntSteps id1 ++ toIntSteps pwd1, 0 ≤ v ∧ v ≤ 9999) ∧
        toInt id1 = toIntExact id1 ∧ toInt pwd1 = toIntExact pwd1) := by
  have part1 : ∀ buf : Nat → Char, digits4 buf = true →
      (∀ v ∈ toIntSteps buf, 0 ≤ v ∧ v ≤ 9999) ∧ toInt buf = toIntExact buf ∧
        0 ≤ toInt buf ∧ toInt buf ≤ 9999 := by
    intro buf h
    have d := digits4_toNat h
    have a0 := d 0 (by norm_num)
    have a1 := d 1 (by norm_num)
    have a2 := d 2 (by norm_num)
    have a3 := d 3 (by norm_num)
    have e := toInt_of_digits h
    have c0 := charToInt_ascii (show (buf 0).toNat < 128 by omega)
    have c1 := charToInt_ascii (show (buf 1).toNat < 128 by omega)
    have c2 := charToInt_ascii (show (buf 2).toNat < 128 by omega)
    have c3 := charToInt_ascii (show (buf 3).toNat < 128 by omega)
    refine ⟨?_, ?_, by omega, by omega⟩
    · intro v hv
      simp only [toIntSteps, charToInt_zero, c0, c1, c2, c3, List.mem_cons,
        List.mem_singleton, List.not_mem_nil, or_false] at hv
      rcases hv with hv | hv | hv | hv | hv | hv | hv | hv | hv | hv <;> omega
    · rw [e]
      simp only [toIntExact, charToInt_zero, c0, c1, c2, c3]
      omega
  refine ⟨part1, ?_⟩
  intro idBuf pwdBuf s id1 pwd1 s1 h
  unfold main_iteration at h
  simp only at h
  split at h
  · cases h
  · rename_i b1 t1 hr1
    split at h
    · cases h
    · rename_i b2 t2 hr2
      have hi : id1 = b1 := by cases h; rfl
      have hp : pwd1 = b2 := by cases h; rfl
      have hs : s1 = main_check b1 b2 t2 := by cases h; rfl
      subst hi hp
      have g1 := readCode_digits4 hr1
      have g2 := readCode_digits4 hr2
      obtain ⟨p1, p2, _, _⟩ := part1 id1 g1
      obtain ⟨q1, q2, _, _⟩ := part1 pwd1 g2
      refine ⟨⟨t2, hs⟩, g1, g2, ?_, p2, q2⟩
      intro v hv
      rcases List.mem_append.mp hv with hv | hv
      · exact p1 v hv
      · exact q1 v hv

set_option maxRecDepth 8000

/-- C10 on "2335", and on a pass of the main loop with the key presses
`A 2 3 3 0` for the ID and again for the password. -/
theorem toInt_no_overflow_witness :
    (digits4 (bufOf "2335") = true ∧
      (∀ v ∈ toIntSteps (bufOf "2335"), 0 ≤ v ∧ v ≤ 9999) ∧
      toInt (bufOf "2335") = toIntExact (bufOf "2335") ∧
      0 ≤ toInt (bufOf "2335") ∧ toInt (bufOf "2335") ≤ 9999) ∧
    ∃ (id1 pwd1 : Nat → Char) (s1 : HW),
      main_iteration (bufOf "") (bufOf "") (hw0 (pinsA2330 ++ pinsA2330))
        = some (id1, pwd1, s1) ∧
      digits4 id1 = true ∧ digits4 pwd1 = true ∧
      toInt id1 = toIntExact id1 ∧ toInt pwd1 = toIntExact pwd1 := by
  have hs : (main_iteration (bufOf "") (bufOf "") (hw0 (pinsA2330 ++ pinsA2330))).isSome
      = true := by decide
  obtain ⟨⟨id1, pwd1, s1⟩, h⟩ := Option.isSome_iff_exists.mp hs
  obtain ⟨_, g1, g2, _, e1, e2⟩ := toInt_no_overflow.2 _ _ _ _ _ _ h
  exact ⟨⟨by decide, toInt_no_overflow.1 (bufOf "2335") (by decide)⟩,
    id1, pwd1, s1, h, g1, g2, e1, e2⟩

end EmploymentID
